import Mathlib

/-!
Shallow embedding of the PeakConverter program: the transcript coordinate
derivation, coding-landmark computation, isoform selection, parameter
summarisation and peak remapping, together with theorems settling the
design-level claims about them.

Machine integers are modelled as `Int`; genomic coordinates are half-open
intervals.  Python `None` is modelled as `Option.none`.  Expression values
(FPKM) are compared only with `==` and `>` in the program, so they are
modelled as `Int` (exactly-representable values suffice for every claim).
-/

/-- Running-offset translation of exon (start, end) pairs into transcript-local
coordinates, the loop body of `Transcript.get_transcriptomic_coordinates`:
for each exon, local-start = b and local-end = b + (end - start), and b then
advances by the exon length. -/
def transCoords : Int → List (Int × Int) → List (Int × Int)
  | _, [] => []
  | b, (s, e) :: rest => (b, b + (e - s)) :: transCoords (b + (e - s)) rest

/-- Static fields of class `Transcript` (the derived deque/landmark fields are
computed by the functions below, mirroring the calls in `__init__`). -/
structure Transcript where
  id : String
  uid : Nat
  chrom : String
  strand : String
  txs : Int
  txe : Int
  cdss : Int
  cdse : Int
  genomicStarts : List Int
  genomicEnds : List Int
  gid : String
deriving DecidableEq, Repr

/-- Genomic exon (start, end) pairs.  The program indexes the two parallel
lists together (`enumerate(self.genomic_starts)` with `self.genomic_ends[index]`),
which is `zip` when the two lists have equal length — the data-model invariant. -/
def Transcript.exons (t : Transcript) : List (Int × Int) :=
  t.genomicStarts.zip t.genomicEnds

/-- Transcript-local exon (start, end) pairs, `get_transcriptomic_coordinates`:
plus strand processes exons in genomic order appending to the right; minus
strand processes them in reversed order and `appendleft`s each result, which is
the reverse of the coordinates of the reversed exon list.  Any other strand
string leaves the deques empty. -/
def Transcript.transExons (t : Transcript) : List (Int × Int) :=
  if t.strand = "+" then transCoords 0 t.exons
  else if t.strand = "-" then (transCoords 0 t.exons.reverse).reverse
  else []

/-- Deque `trans_starts` of the program. -/
def Transcript.transStarts (t : Transcript) : List Int :=
  t.transExons.map Prod.fst

/-- Deque `trans_ends` of the program. -/
def Transcript.transEnds (t : Transcript) : List Int :=
  t.transExons.map Prod.snd

/-- Stable descending sort over `Int`, modelling Python `sorted(xs, reverse=True)`
(for `Int` values only the multiset order is observable, so any correct sort
is an exact model). -/
def pySortDesc (l : List Int) : List Int :=
  l.insertionSort (fun a b => b ≤ a)

/-- Stable ascending sort over `Int`, modelling Python `sorted(xs)`. -/
def pySortAsc (l : List Int) : List Int :=
  l.insertionSort (fun a b => a ≤ b)

/-- Transcript length, `__len__`: `sorted(self.trans_ends, reverse=True)[0]`,
the head of the descending sort of the local exon ends (Python raises on an
empty list; the default 0 is never exercised by the theorems, whose
hypotheses require at least one exon). -/
def Transcript.pyLen (t : Transcript) : Int :=
  (pySortDesc t.transEnds).headD 0

/-- One iteration of the `get_start_stop` loop over
`zip(genomic_starts, genomic_ends, trans_starts)`: the state is the pair
(ctis, stop), each `none` until first written. -/
def startStopStep (strand : String) (cdss cdse : Int)
    (st : Option Int × Option Int) (x : Int × Int × Int) :
    Option Int × Option Int :=
  let es := x.1
  let ee := x.2.1
  let ts := x.2.2
  let st1 :=
    if es ≤ cdss ∧ cdss ≤ ee then
      if strand = "+" then (some (ts + cdss - es), st.2)
      else (st.1, some (ts + ee - cdss))
    else st
  if es ≤ cdse ∧ cdse ≤ ee then
    if strand = "+" then (st1.1, some (ts + cdse - es))
    else (some (ts + ee - cdse), st1.2)
  else st1

/-- Landmarks from `get_start_stop`: (ctis, stop); both are the sentinel -1
when CDS-start equals CDS-end, otherwise the fold over the exons. -/
def Transcript.startStop (t : Transcript) : Option Int × Option Int :=
  if t.cdss = t.cdse then (some (-1), some (-1))
  else
    (t.genomicStarts.zip (t.genomicEnds.zip t.transStarts)).foldl
      (startStopStep t.strand t.cdss t.cdse) (none, none)

/-- Transcriptomic location of the canonical ATG (`self.ctis`). -/
def Transcript.ctis (t : Transcript) : Option Int := t.startStop.1

/-- Transcriptomic location of the stop codon (`self.stop`). -/
def Transcript.stopPos (t : Transcript) : Option Int := t.startStop.2

/-- Coding classification set by `get_start_stop`. -/
def Transcript.typeOf (t : Transcript) : String :=
  if t.cdss = t.cdse then "non-coding" else "coding"

/-- Length of one genomic exon interval. -/
def exonLen (p : Int × Int) : Int := p.2 - p.1

/-- Total length of a list of exon intervals. -/
def sumLens (l : List (Int × Int)) : Int := (l.map exonLen).sum

/-- Exon lists as the data model requires them: each interval half-open with
start ≤ end, and in ascending, non-overlapping genomic order. -/
def ValidExons (l : List (Int × Int)) : Prop :=
  (∀ p ∈ l, p.1 ≤ p.2) ∧ l.Chain' (fun p q => p.2 ≤ q.1)

/-- Association-list lookup with Python-dict semantics (first match; keys are
unique in every list the program builds). -/
def alistGet {kt bt : Type} [DecidableEq kt] (d : List (kt × bt)) (k : kt) : Option bt :=
  match d with
  | [] => none
  | (k2, v) :: rest => if k2 = k then some v else alistGet rest k

/-- Association-list update with Python-dict semantics: an existing key keeps
its position, a new key is appended at the end. -/
def alistSet {kt bt : Type} [DecidableEq kt] (d : List (kt × bt)) (k : kt) (v : bt) :
    List (kt × bt) :=
  match d with
  | [] => [(k, v)]
  | (k2, v2) :: rest => if k2 = k then (k2, v) :: rest else (k2, v2) :: alistSet rest k v

/-- Grouping key accepted by `build_transcriptome` (`uid`, `gid` or `txid`). -/
inductive TKey where
  | uid
  | gid
  | txid
deriving DecidableEq, Repr

/-- Key value of a transcript under a grouping key: the synthetic unique id is
an integer, the other two keys are strings. -/
def keyOf : TKey → Transcript → Sum Nat String
  | TKey.uid, t => Sum.inl t.uid
  | TKey.gid, t => Sum.inr t.gid
  | TKey.txid, t => Sum.inr t.id

/-- One step of the `build_transcriptome` loop: if the key is absent the group
is created as a singleton, otherwise the transcript is appended to it. -/
def addToGroups (key : TKey) (gs : List (Sum Nat String × List Transcript))
    (t : Transcript) : List (Sum Nat String × List Transcript) :=
  match alistGet gs (keyOf key t) with
  | none => alistSet gs (keyOf key t) [t]
  | some l => alistSet gs (keyOf key t) (l ++ [t])

/-- Dictionary from key values to lists of transcripts, `build_transcriptome`
(the per-line `build_transcript` construction is the identity here because the
table rows are already modelled as `Transcript` values). -/
def build_transcriptome (txs : List Transcript) (key : TKey) :
    List (Sum Nat String × List Transcript) :=
  txs.foldl (addToGroups key) []

/-- Transcripts whose exons `gen2tr` writes into the temporary conversion BED
file: the loop keeps a group only when it has exactly one member
(`if len(tx_dict[tx_class]) == 1`), in dictionary order. -/
def gen2trConversionTranscripts : List (Sum Nat String × List Transcript) → List Transcript
  | [] => []
  | g :: rest =>
      if g.2.length = 1 then g.2 ++ gen2trConversionTranscripts rest
      else gen2trConversionTranscripts rest

/-- Conversion input as `__main__` builds it: `tx_dict = build_transcriptome(tb_array, 'txid')`
feeds `gen2tr`, so the grouping key is the transcript id. -/
def mainConversionInput (txs : List Transcript) : List Transcript :=
  gen2trConversionTranscripts (build_transcriptome txs TKey.txid)

/-- One intersection output line as `gen2tr` parses it: peak fields from the
A side, exon/transcript fields from the temporary conversion BED file, and the
overlap length appended by the intersect call. -/
structure OverlapRecord where
  pStart : Int
  pEnd : Int
  peakId : String
  exSt : Int
  exEnd : Int
  strand : String
  uid : String
  trExonStart : Int
  overlap : Int
deriving DecidableEq, Repr

/-- One line of the transcriptomic output written by `gen2tr`. -/
structure MappedSegment where
  uid : String
  segStart : Int
  segEnd : Int
  peakId : String
deriving DecidableEq, Repr

/-- Per-record conversion of the `gen2tr` output loop: the branch structure
mirrors the `if/elif` chains on strand and on the boundary comparison; a
record with any other strand string falls through both `elif`s and emits
nothing. -/
def gen2trSegment (r : OverlapRecord) : Option MappedSegment :=
  if r.strand = "+" then
    if r.pStart ≤ r.exSt then
      some ⟨r.uid, r.trExonStart, r.trExonStart + r.overlap, r.peakId⟩
    else
      let gap := r.pStart - r.exSt
      some ⟨r.uid, r.trExonStart + gap, r.trExonStart + gap + r.overlap, r.peakId⟩
  else if r.strand = "-" then
    if r.pEnd ≥ r.exEnd then
      some ⟨r.uid, r.trExonStart, r.trExonStart + r.overlap, r.peakId⟩
    else
      let gap := r.exEnd - r.pEnd
      some ⟨r.uid, r.trExonStart + gap, r.trExonStart + gap + r.overlap, r.peakId⟩
  else none

/-- One parameter row of `get_parameters`. -/
structure TxRow where
  txId : String
  atg : Int
  stopCodon : Int
  txLength : Int
  firstSpliceSite : Int
  lastSpliceSite : Int
  uid : Nat
deriving DecidableEq, Repr

/-- Row built for one qualifying transcript by `get_parameters`: the four
branches on spliced (`len(starts) > 1`) and coding (`tx.ctis > 0`).  A `none`
ctis would raise in Python when compared with 0; the default 0 sends it to the
non-coding branches and the theorems below only quantify over transcripts
whose landmarks are set. -/
def rowOf (t : Transcript) : TxRow :=
  if 1 < (pySortAsc t.transStarts).length ∧ 0 < t.ctis.getD 0 then
    ⟨t.id, t.ctis.getD 0, t.stopPos.getD 0, t.pyLen,
     (pySortAsc t.transStarts).getD 1 0, (pySortAsc t.transStarts).getLastD 0, t.uid⟩
  else if 1 < (pySortAsc t.transStarts).length then
    ⟨t.id, -1, -1, t.pyLen,
     (pySortAsc t.transStarts).getD 1 0, (pySortAsc t.transStarts).getLastD 0, t.uid⟩
  else if 0 < t.ctis.getD 0 then
    ⟨t.id, t.ctis.getD 0, t.stopPos.getD 0, t.pyLen, -1, -1, t.uid⟩
  else
    ⟨t.id, -1, -1, t.pyLen, -1, -1, t.uid⟩

/-- Parameter table of `get_parameters` over the transcripts of the collection
in iteration order: one row per transcript whose chromosome name has at most 5
characters, no row for any other. -/
def get_parameters : List Transcript → List TxRow
  | [] => []
  | t :: ts => if t.chrom.length ≤ 5 then rowOf t :: get_parameters ts else get_parameters ts

/-- One line of the cufflinks expression table as `choose_selected_cufflinks`
reads it: isoform id, FPKM and transcript length. -/
structure ExpLine where
  isoform : String
  fpkm : Int
  txlength : Int
deriving DecidableEq, Repr

/-- Per-gene incumbent record kept in `iso_dict`:
(isoform, fpkm, txlength, coding). -/
structure IsoChoice where
  isoform : String
  fpkm : Int
  txlength : Int
  coding : Nat
deriving DecidableEq, Repr

/-- Tie-break update of `choose_selected_cufflinks` when the gene already has
an incumbent: the three `if/elif` branches in source order; otherwise the
incumbent is kept. -/
def updateIso (inc new : IsoChoice) : IsoChoice :=
  if new.fpkm > inc.fpkm then new
  else if new.fpkm = inc.fpkm ∧ new.coding = 1 ∧ inc.coding = 0 then new
  else if new.fpkm = inc.fpkm ∧ new.txlength > inc.txlength then new
  else inc

/-- Mutable state of the `choose_selected_cufflinks` loop: the per-gene
dictionary and the unmatched-isoform counter `c`. -/
structure SelState where
  isoDict : List (String × IsoChoice)
  c : Nat
deriving DecidableEq, Repr

/-- One iteration of the `choose_selected_cufflinks` loop.  A known isoform
updates the per-gene dictionary; an unknown one increments `c` and the run
aborts (`sys.exit`) as soon as `c > 5`. -/
def chooseStep (gd : String → Option (String × Nat)) (st : SelState) (line : ExpLine) :
    Except Unit SelState :=
  match gd line.isoform with
  | some (gene, coding) =>
      let new : IsoChoice := ⟨line.isoform, line.fpkm, line.txlength, coding⟩
      match alistGet st.isoDict gene with
      | some inc => Except.ok ⟨alistSet st.isoDict gene (updateIso inc new), st.c⟩
      | none => Except.ok ⟨alistSet st.isoDict gene new, st.c⟩
  | none =>
      if st.c + 1 > 5 then Except.error () else Except.ok ⟨st.isoDict, st.c + 1⟩

/-- Loop of `choose_selected_cufflinks` with early exit modelled as `Except`. -/
def chooseRun (gd : String → Option (String × Nat)) :
    SelState → List ExpLine → Except Unit SelState
  | st, [] => Except.ok st
  | st, line :: rest =>
      match chooseStep gd st line with
      | Except.error e => Except.error e
      | Except.ok st2 => chooseRun gd st2 rest

/-- Whole selector `choose_selected_cufflinks` over the expression lines, with
the annotation index (`isoform_gene_dict`) supplied as a finite map. -/
def choose_selected_cufflinks (gd : String → Option (String × Nat))
    (lines : List ExpLine) : Except Unit SelState :=
  chooseRun gd ⟨[], 0⟩ lines

/-- Winner isoform the selector records for one gene, when the run succeeds. -/
def selWinner (gd : String → Option (String × Nat)) (lines : List ExpLine)
    (gene : String) : Option String :=
  match choose_selected_cufflinks gd lines with
  | Except.ok st =>
      match alistGet st.isoDict gene with
      | some ch => some ch.isoform
      | none => none
  | Except.error _ => none

/-- Dictionary update of one expression line ignoring the counter; used to
state that unmatched lines never touch the winner dictionary. -/
def selDictStep (gd : String → Option (String × Nat))
    (d : List (String × IsoChoice)) (line : ExpLine) : List (String × IsoChoice) :=
  match gd line.isoform with
  | some (gene, coding) =>
      let new : IsoChoice := ⟨line.isoform, line.fpkm, line.txlength, coding⟩
      match alistGet d gene with
      | some inc => alistSet d gene (updateIso inc new)
      | none => alistSet d gene new
  | none => d

/-- Last element of the zipped exon list whose genomic span contains the
coordinate c; the loop of `get_start_stop` overwrites on every match, so the
final value comes from the last matching exon. -/
def lastContaining (c : Int) : List (Int × Int × Int) → Option (Int × Int × Int)
  | [] => none
  | x :: rest =>
      match lastContaining c rest with
      | some y => some y
      | none => if x.1 ≤ c ∧ c ≤ x.2.1 then some x else none

/-- Minimum of a nonempty integer list (0 for the empty list, never used). -/
def listMin : List Int → Int
  | [] => 0
  | x :: xs => xs.foldl min x

/-- Maximum of a nonempty integer list (0 for the empty list, never used). -/
def listMax : List Int → Int
  | [] => 0
  | x :: xs => xs.foldl max x

/-- Second-smallest element as the specification words it: the minimum after
removing one occurrence of the minimum. -/
def secondSmallest (l : List Int) : Int := listMin (l.erase (listMin l))

/-- Transcript of the specification examples: exons genomic (100,150) and
(300,320) on the minus strand, CDS 120..310. -/
def wtMinus : Transcript :=
  ⟨"NM_minus", 1, "chr1", "-", 100, 320, 120, 310, [100, 300], [150, 320], "GENE1"⟩

/-- Same exon geometry on the plus strand, CDS 120..310. -/
def wtPlus : Transcript :=
  ⟨"NM_plus", 2, "chr1", "+", 100, 320, 120, 310, [100, 300], [150, 320], "GENE1"⟩

/-- Two table records sharing a transcript id but carrying distinct synthetic
unique ids, as `read_table_into_array` assigns them. -/
def dupA : Transcript :=
  ⟨"NM_dup", 1, "chr1", "+", 0, 10, 0, 0, [0], [10], "GENE2"⟩

/-- Second record with the same transcript id as `dupA`. -/
def dupB : Transcript :=
  ⟨"NM_dup", 2, "chr1", "+", 0, 20, 0, 0, [0], [20], "GENE2"⟩

/-- Annotation index for the tie-break example: isoA is coding, isoB is
non-coding, both of geneG. -/
def gdBug : String → Option (String × Nat) := fun s =>
  if s = "isoA" then some ("geneG", 1)
  else if s = "isoB" then some ("geneG", 0)
  else none

/-- Expression line of the coding isoform: fpkm 5.0, length 800. -/
def lineA : ExpLine := ⟨"isoA", 5, 800⟩

/-- Expression line of the non-coding isoform: fpkm 5.0, length 1200. -/
def lineB : ExpLine := ⟨"isoB", 5, 1200⟩

/-- Overlap record of the specification example: plus-strand exon genomic
(1000,1100) with transcript-local start 200, peak genomic (1050,1200),
overlap 50. -/
def exampleRecordPlus : OverlapRecord :=
  ⟨1050, 1200, "peak1", 1000, 1100, "+", "7", 200, 50⟩

/-- Minus-strand overlap record used to witness the width invariant. -/
def exampleRecordMinus : OverlapRecord :=
  ⟨980, 1060, "peak2", 1000, 1100, "-", "8", 200, 60⟩

/-- Annotation index that knows no isoform at all, for the abort witness. -/
def gdNone : String → Option (String × Nat) := fun _ => none

/-- Six expression lines whose isoforms are absent from the annotation index. -/
def sixUnknown : List ExpLine :=
  [⟨"u1", 0, 0⟩, ⟨"u2", 0, 0⟩, ⟨"u3", 0, 0⟩, ⟨"u4", 0, 0⟩, ⟨"u5", 0, 0⟩,
   ⟨"u6", 0, 0⟩]

-- Structural facts about transCoords

theorem transCoords_length (l : List (Int × Int)) :
    ∀ b : Int, (transCoords b l).length = l.length := by
  induction l with
  | nil => intro b; rfl
  | cons p rest ih =>
    intro b
    obtain ⟨s, e⟩ := p
    simp [transCoords, ih]

theorem sumLens_nil : sumLens [] = 0 := rfl

theorem sumLens_cons (p : Int × Int) (l : List (Int × Int)) :
    sumLens (p :: l) = (p.2 - p.1) + sumLens l := by
  simp [sumLens, exonLen]

theorem sumLens_nonneg (l : List (Int × Int)) (h : ∀ p ∈ l, p.1 ≤ p.2) :
    0 ≤ sumLens l := by
  induction l with
  | nil => simp [sumLens]
  | cons p rest ih =>
    rw [sumLens_cons]
    have h1 : p.1 ≤ p.2 := h p (List.mem_cons_self p rest)
    have h2 : 0 ≤ sumLens rest := ih fun q hq => h q (List.mem_cons_of_mem p hq)
    omega

theorem sumLens_reverse (l : List (Int × Int)) :
    sumLens l.reverse = sumLens l := by
  simp [sumLens, List.sum_reverse]

theorem transCoords_getD (l : List (Int × Int)) :
    ∀ (b : Int) (i : Nat), i < l.length →
      (transCoords b l).getD i (0, 0) =
        (b + sumLens (l.take i), b + sumLens (l.take (i + 1))) := by
  induction l with
  | nil => intro b i h; simp at h
  | cons p rest ih =>
    intro b i h
    obtain ⟨s, e⟩ := p
    cases i with
    | zero =>
      simp [transCoords, sumLens_cons, sumLens, exonLen]
    | succ j =>
      have hj : j < rest.length := by simpa using h
      have := ih (b + (e - s)) j hj
      simp only [transCoords, List.getD_cons_succ, List.take_succ_cons] at *
      rw [this, sumLens_cons, sumLens_cons]
      exact Prod.ext (by ring) (by ring)

theorem transCoords_cover (l : List (Int × Int)) (hval : ∀ p ∈ l, p.1 ≤ p.2) :
    ∀ b k : Int,
      (∃ p ∈ transCoords b l, p.1 ≤ k ∧ k < p.2) ↔ (b ≤ k ∧ k < b + sumLens l) := by
  induction l with
  | nil =>
    intro b k
    simp [transCoords, sumLens]
  | cons p rest ih =>
    intro b k
    obtain ⟨s, e⟩ := p
    have hse : s ≤ e := hval (s, e) (List.mem_cons_self _ _)
    have hrest : ∀ q ∈ rest, q.1 ≤ q.2 :=
      fun q hq => hval q (List.mem_cons_of_mem _ hq)
    have hnn : 0 ≤ sumLens rest := sumLens_nonneg rest hrest
    have ihb := ih hrest (b + (e - s)) k
    rw [sumLens_cons]
    simp only [transCoords, List.mem_cons]
    constructor
    · rintro ⟨q, hq | hq, hq1, hq2⟩
      · subst hq
        simp at hq1 hq2
        omega
      · have := (ihb.mp ⟨q, hq, hq1, hq2⟩)
        omega
    · rintro ⟨hk1, hk2⟩
      by_cases hc : k < b + (e - s)
      · exact ⟨(b, b + (e - s)), Or.inl rfl, by simpa using hk1, by simpa using hc⟩
      · obtain ⟨q, hq, hq1, hq2⟩ := ihb.mpr ⟨by omega, by omega⟩
        exact ⟨q, Or.inr hq, hq1, hq2⟩

theorem transCoords_snd_le (l : List (Int × Int)) (hval : ∀ p ∈ l, p.1 ≤ p.2) :
    ∀ b : Int, ∀ p ∈ transCoords b l, p.2 ≤ b + sumLens l := by
  induction l with
  | nil => intro b p hp; simp [transCoords] at hp
  | cons q rest ih =>
    intro b p hp
    obtain ⟨s, e⟩ := q
    have hrest : ∀ r ∈ rest, r.1 ≤ r.2 :=
      fun r hr => hval r (List.mem_cons_of_mem _ hr)
    have hnn : 0 ≤ sumLens rest := sumLens_nonneg rest hrest
    rw [sumLens_cons]
    simp only [transCoords, List.mem_cons] at hp
    rcases hp with hp | hp
    · subst hp; simp; omega
    · have := ih hrest (b + (e - s)) p hp
      omega

theorem transCoords_snd_mem (l : List (Int × Int)) (h : l ≠ []) :
    ∀ b : Int, (b + sumLens l) ∈ (transCoords b l).map Prod.snd := by
  induction l with
  | nil => exact absurd rfl h
  | cons q rest ih =>
    intro b
    obtain ⟨s, e⟩ := q
    cases rest with
    | nil => simp [transCoords, sumLens_cons, sumLens, exonLen]
    | cons a as =>
      have hmem := ih (by simp) (b + (e - s))
      rw [sumLens_cons]
      simp only [transCoords, List.map_cons, List.mem_cons]
      right
      have heq : b + ((e - s) + sumLens (a :: as)) = b + (e - s) + sumLens (a :: as) := by
        ring
      rw [heq]
      simp only [transCoords, List.map_cons, List.mem_cons] at hmem
      exact hmem

theorem getD_of_lt {α : Type} (l : List α) (d : α) (i : Nat) (h : i < l.length) :
    l.getD i d = l[i] := by
  simp [List.getD_eq_getElem?_getD, List.getElem?_eq_getElem h]

theorem sumLens_append (l1 l2 : List (Int × Int)) :
    sumLens (l1 ++ l2) = sumLens l1 + sumLens l2 := by
  simp [sumLens]

theorem sumLens_take_add_drop (l : List (Int × Int)) (k : Nat) :
    sumLens (l.take k) + sumLens (l.drop k) = sumLens l := by
  rw [← sumLens_append, List.take_append_drop]

theorem pySortDesc_headD_mem (l : List Int) (h : l ≠ []) :
    (pySortDesc l).headD 0 ∈ l := by
  have hperm := List.perm_insertionSort (fun a b : Int => b ≤ a) l
  rcases hs : pySortDesc l with _ | ⟨a, rest⟩
  · rw [pySortDesc] at hs
    rw [hs] at hperm
    exact absurd hperm.nil_eq.symm h
  · rw [pySortDesc] at hs
    rw [hs] at hperm
    exact hperm.mem_iff.mp (by simp)

theorem pySortDesc_headD_ge (l : List Int) (x : Int) (hx : x ∈ l) :
    x ≤ (pySortDesc l).headD 0 := by
  have hperm := List.perm_insertionSort (fun a b : Int => b ≤ a) l
  have hsort := List.sorted_insertionSort (r := fun a b : Int => b ≤ a) l
  rw [pySortDesc]
  rcases hs : List.insertionSort (fun a b : Int => b ≤ a) l with _ | ⟨a, rest⟩
  · rw [hs] at hperm
    exact absurd hperm.nil_eq.symm (by rintro rfl; simp at hx)
  · rw [hs] at hperm hsort
    have hxmem : x ∈ a :: rest := hperm.mem_iff.mpr hx
    rw [List.sorted_cons] at hsort
    simp only [List.headD_cons]
    rcases List.mem_cons.mp hxmem with rfl | hxr
    · exact le_refl x
    · exact hsort.1 x hxr

theorem Transcript.transExons_length (t : Transcript)
    (h : t.strand = "+" ∨ t.strand = "-") :
    t.transExons.length = t.exons.length := by
  rcases h with h | h <;> simp [Transcript.transExons, h, transCoords_length]

theorem Transcript.transExons_getD_plus (t : Transcript) (h : t.strand = "+")
    (i : Nat) (hi : i < t.exons.length) :
    t.transExons.getD i (0, 0) =
      (sumLens (t.exons.take i), sumLens (t.exons.take (i + 1))) := by
  rw [Transcript.transExons, if_pos h, transCoords_getD t.exons 0 i hi]
  simp

theorem Transcript.transExons_getD_minus (t : Transcript) (h : t.strand = "-")
    (i : Nat) (hi : i < t.exons.length) :
    t.transExons.getD i (0, 0) =
      (sumLens t.exons - sumLens (t.exons.take (i + 1)),
       sumLens t.exons - sumLens (t.exons.take i)) := by
  have hne : ¬ t.strand = "+" := by rw [h]; decide
  rw [Transcript.transExons, if_neg hne, if_pos h]
  have hlen : (transCoords 0 t.exons.reverse).length = t.exons.length := by
    rw [transCoords_length, List.length_reverse]
  have hirev : i < (transCoords 0 t.exons.reverse).reverse.length := by
    rw [List.length_reverse, hlen]; exact hi
  rw [getD_of_lt _ _ i hirev, List.getElem_reverse]
  have hlt : (transCoords 0 t.exons.reverse).length - 1 - i <
      (transCoords 0 t.exons.reverse).length := by
    rw [hlen]; omega
  rw [← getD_of_lt _ (0, 0) _ hlt, hlen]
  have hrevlen : t.exons.length - 1 - i < t.exons.reverse.length := by
    rw [List.length_reverse]; omega
  rw [transCoords_getD t.exons.reverse 0 _ (by rw [List.length_reverse]; omega)]
  have h1 : t.exons.reverse.take (t.exons.length - 1 - i) =
      (t.exons.drop (i + 1)).reverse := by
    rw [List.take_reverse]
    congr 1
    congr 1
    omega
  have h2 : t.exons.reverse.take (t.exons.length - 1 - i + 1) =
      (t.exons.drop i).reverse := by
    rw [List.take_reverse]
    congr 1
    congr 1
    omega
  rw [h1, h2, sumLens_reverse, sumLens_reverse]
  have h3 := sumLens_take_add_drop t.exons (i + 1)
  have h4 := sumLens_take_add_drop t.exons i
  exact Prod.ext (by simp; omega) (by simp; omega)

theorem sumLens_take_mono (l : List (Int × Int)) (hval : ∀ p ∈ l, p.1 ≤ p.2)
    {i j : Nat} (hij : i ≤ j) :
    sumLens (l.take i) ≤ sumLens (l.take j) := by
  have hsplit := sumLens_take_add_drop (l.take j) i
  rw [List.take_take, min_eq_left hij] at hsplit
  have hnn : 0 ≤ sumLens ((l.take j).drop i) := by
    refine sumLens_nonneg _ fun p hp => hval p ?_
    exact List.mem_of_mem_take (List.mem_of_mem_drop hp)
  omega

theorem Transcript.transEnds_le_sumLens (t : Transcript)
    (hs : t.strand = "+" ∨ t.strand = "-")
    (hval : ∀ p ∈ t.exons, p.1 ≤ p.2) :
    ∀ x ∈ t.transEnds, x ≤ sumLens t.exons := by
  intro x hx
  rw [Transcript.transEnds] at hx
  rcases List.mem_map.mp hx with ⟨p, hp, rfl⟩
  rcases hs with h | h
  · rw [Transcript.transExons, if_pos h] at hp
    have := transCoords_snd_le t.exons hval 0 p hp
    omega
  · have hne : ¬ t.strand = "+" := by rw [h]; decide
    rw [Transcript.transExons, if_neg hne, if_pos h, List.mem_reverse] at hp
    have hvr : ∀ q ∈ t.exons.reverse, q.1 ≤ q.2 :=
      fun q hq => hval q (List.mem_reverse.mp hq)
    have := transCoords_snd_le t.exons.reverse hvr 0 p hp
    rw [sumLens_reverse] at this
    omega

theorem Transcript.sumLens_mem_transEnds (t : Transcript)
    (hs : t.strand = "+" ∨ t.strand = "-") (hne : t.exons ≠ []) :
    sumLens t.exons ∈ t.transEnds := by
  rcases hs with h | h
  · rw [Transcript.transEnds, Transcript.transExons, if_pos h]
    have := transCoords_snd_mem t.exons hne 0
    simpa using this
  · have hnp : ¬ t.strand = "+" := by rw [h]; decide
    rw [Transcript.transEnds, Transcript.transExons, if_neg hnp, if_pos h]
    have hner : t.exons.reverse ≠ [] := by
      intro hc; exact hne (by simpa using congrArg List.reverse hc)
    have := transCoords_snd_mem t.exons.reverse hner 0
    rw [sumLens_reverse] at this
    rw [List.map_reverse, List.mem_reverse]
    simpa using this

theorem Transcript.pyLen_eq_sumLens (t : Transcript)
    (hs : t.strand = "+" ∨ t.strand = "-") (hne : t.exons ≠ [])
    (hval : ∀ p ∈ t.exons, p.1 ≤ p.2) :
    t.pyLen = sumLens t.exons := by
  have hmem : sumLens t.exons ∈ t.transEnds := t.sumLens_mem_transEnds hs hne
  have h1 : sumLens t.exons ≤ t.pyLen := pySortDesc_headD_ge _ _ hmem
  have hEne : t.transEnds ≠ [] := by
    intro hc
    rw [hc] at hmem
    simp at hmem
  have h2 : t.pyLen ≤ sumLens t.exons :=
    t.transEnds_le_sumLens hs hval _ (pySortDesc_headD_mem _ hEne)
  omega

theorem Transcript.transExons_cover (t : Transcript)
    (hs : t.strand = "+" ∨ t.strand = "-")
    (hval : ∀ p ∈ t.exons, p.1 ≤ p.2) :
    ∀ k : Int, (∃ p ∈ t.transExons, p.1 ≤ k ∧ k < p.2) ↔
      (0 ≤ k ∧ k < sumLens t.exons) := by
  intro k
  rcases hs with h | h
  · rw [Transcript.transExons, if_pos h]
    have := transCoords_cover t.exons hval 0 k
    simpa using this
  · have hnp : ¬ t.strand = "+" := by rw [h]; decide
    rw [Transcript.transExons, if_neg hnp, if_pos h]
    have hvr : ∀ q ∈ t.exons.reverse, q.1 ≤ q.2 :=
      fun q hq => hval q (List.mem_reverse.mp hq)
    have hcov := transCoords_cover t.exons.reverse hvr 0 k
    rw [sumLens_reverse] at hcov
    constructor
    · rintro ⟨p, hp, hk⟩
      exact hcov.mp ⟨p, List.mem_reverse.mp hp, hk⟩ |>.imp (by omega) (by omega)
    · intro hk
      obtain ⟨p, hp, hk2⟩ := hcov.mpr (by omega)
      exact ⟨p, List.mem_reverse.mpr hp, hk2⟩

theorem Transcript.transExons_disjoint (t : Transcript)
    (hs : t.strand = "+" ∨ t.strand = "-")
    (hval : ∀ p ∈ t.exons, p.1 ≤ p.2) :
    ∀ i j : Nat, i < t.transExons.length → j < t.transExons.length → ∀ k : Int,
      (t.transExons.getD i (0, 0)).1 ≤ k → k < (t.transExons.getD i (0, 0)).2 →
      (t.transExons.getD j (0, 0)).1 ≤ k → k < (t.transExons.getD j (0, 0)).2 →
      i = j := by
  intro i j hi hj k hi1 hi2 hj1 hj2
  rw [t.transExons_length hs] at hi hj
  by_contra hne
  rcases hs with h | h
  · rw [t.transExons_getD_plus h i hi] at hi1 hi2
    rw [t.transExons_getD_plus h j hj] at hj1 hj2
    simp only at hi1 hi2 hj1 hj2
    rcases Nat.lt_or_ge i j with hij | hge
    · have := sumLens_take_mono t.exons hval (show i + 1 ≤ j from hij)
      omega
    · have hji : j + 1 ≤ i := by omega
      have := sumLens_take_mono t.exons hval hji
      omega
  · rw [t.transExons_getD_minus h i hi] at hi1 hi2
    rw [t.transExons_getD_minus h j hj] at hj1 hj2
    simp only at hi1 hi2 hj1 hj2
    rcases Nat.lt_or_ge i j with hij | hge
    · have := sumLens_take_mono t.exons hval (show i + 1 ≤ j from hij)
      omega
    · have hji : j + 1 ≤ i := by omega
      have := sumLens_take_mono t.exons hval hji
      omega

theorem sumLens_take_succ (l : List (Int × Int)) (i : Nat) (hi : i < l.length) :
    sumLens (l.take (i + 1)) = sumLens (l.take i) + exonLen (l.getD i (0, 0)) := by
  rw [List.take_succ, sumLens_append, getD_of_lt _ _ _ hi, List.getElem?_eq_getElem hi]
  simp [sumLens]

/-- C1: for every transcript model built from a genomic exon list of half-open
intervals in ascending, non-overlapping order, on either strand, the derived
transcript-local exon intervals exactly tile [0, transcript length) — every
position below the length is covered and by exactly one exon interval — and
the transcript length (the `__len__` value) equals the maximum transcript-local
exon end. -/
theorem C1_transcript_tiling (t : Transcript)
    (hs : t.strand = "+" ∨ t.strand = "-")
    (hval : ValidExons t.exons) (hne : t.exons ≠ []) :
    (∀ k : Int, (0 ≤ k ∧ k < t.pyLen) ↔ ∃ p ∈ t.transExons, p.1 ≤ k ∧ k < p.2) ∧
    (∀ i j : Nat, i < t.transExons.length → j < t.transExons.length → ∀ k : Int,
      (t.transExons.getD i (0, 0)).1 ≤ k → k < (t.transExons.getD i (0, 0)).2 →
      (t.transExons.getD j (0, 0)).1 ≤ k → k < (t.transExons.getD j (0, 0)).2 →
      i = j) ∧
    t.pyLen ∈ t.transEnds ∧ (∀ x ∈ t.transEnds, x ≤ t.pyLen) := by
  obtain ⟨hv, _⟩ := hval
  have hL := t.pyLen_eq_sumLens hs hne hv
  refine ⟨?_, t.transExons_disjoint hs hv, ?_, ?_⟩
  · intro k
    rw [hL]
    exact (t.transExons_cover hs hv k).symm
  · rw [hL]
    exact t.sumLens_mem_transEnds hs hne
  · intro x hx
    rw [hL]
    exact t.transEnds_le_sumLens hs hv x hx

/-- Closed instance of C1 at the specification's minus-strand example
transcript. -/
theorem C1_transcript_tiling_witness :
    (∀ k : Int, (0 ≤ k ∧ k < wtMinus.pyLen) ↔
        ∃ p ∈ wtMinus.transExons, p.1 ≤ k ∧ k < p.2) ∧
    (∀ i j : Nat, i < wtMinus.transExons.length → j < wtMinus.transExons.length →
      ∀ k : Int,
      (wtMinus.transExons.getD i (0, 0)).1 ≤ k →
      k < (wtMinus.transExons.getD i (0, 0)).2 →
      (wtMinus.transExons.getD j (0, 0)).1 ≤ k →
      k < (wtMinus.transExons.getD j (0, 0)).2 → i = j) ∧
    wtMinus.pyLen ∈ wtMinus.transEnds ∧ (∀ x ∈ wtMinus.transEnds, x ≤ wtMinus.pyLen) :=
  C1_transcript_tiling wtMinus (Or.inr rfl)
    (by unfold ValidExons; exact ⟨by decide, by simp [wtMinus, Transcript.exons]⟩)
    (by decide)

/-- C5: for both strands, the derived transcript-local list is index-aligned
with the genomic exon list — same length, the pair at index i has exactly the
genomic length of exon i, and its value is the plus-strand prefix-sum pair or
the minus-strand suffix-sum pair recorded back at the original genomic
index. -/
theorem C5_index_alignment (t : Transcript)
    (hs : t.strand = "+" ∨ t.strand = "-") :
    t.transExons.length = t.exons.length ∧
    ∀ i : Nat, i < t.exons.length →
      (t.transExons.getD i (0, 0)).2 - (t.transExons.getD i (0, 0)).1 =
        (t.exons.getD i (0, 0)).2 - (t.exons.getD i (0, 0)).1 ∧
      (t.strand = "+" → t.transExons.getD i (0, 0) =
        (sumLens (t.exons.take i), sumLens (t.exons.take (i + 1)))) ∧
      (t.strand = "-" → t.transExons.getD i (0, 0) =
        (sumLens t.exons - sumLens (t.exons.take (i + 1)),
         sumLens t.exons - sumLens (t.exons.take i))) := by
  refine ⟨t.transExons_length hs, fun i hi => ?_⟩
  rcases hs with h | h
  · refine ⟨?_, fun _ => t.transExons_getD_plus h i hi, fun hm => ?_⟩
    · rw [t.transExons_getD_plus h i hi]
      simp only
      rw [sumLens_take_succ t.exons i hi]
      unfold exonLen
      ring
    · rw [h] at hm
      exact absurd hm (by decide)
  · refine ⟨?_, fun hp => ?_, fun _ => t.transExons_getD_minus h i hi⟩
    · rw [t.transExons_getD_minus h i hi]
      simp only
      rw [sumLens_take_succ t.exons i hi]
      unfold exonLen
      ring
    · rw [h] at hp
      exact absurd hp (by decide)

/-- Closed instance of C5 at the specification's minus-strand example
transcript. -/
theorem C5_index_alignment_witness :
    wtMinus.transExons.length = wtMinus.exons.length ∧
    ∀ i : Nat, i < wtMinus.exons.length →
      (wtMinus.transExons.getD i (0, 0)).2 - (wtMinus.transExons.getD i (0, 0)).1 =
        (wtMinus.exons.getD i (0, 0)).2 - (wtMinus.exons.getD i (0, 0)).1 ∧
      (wtMinus.strand = "+" → wtMinus.transExons.getD i (0, 0) =
        (sumLens (wtMinus.exons.take i), sumLens (wtMinus.exons.take (i + 1)))) ∧
      (wtMinus.strand = "-" → wtMinus.transExons.getD i (0, 0) =
        (sumLens wtMinus.exons - sumLens (wtMinus.exons.take (i + 1)),
         sumLens wtMinus.exons - sumLens (wtMinus.exons.take i))) :=
  C5_index_alignment wtMinus (Or.inr rfl)

theorem startStopStep_fst_plus (cdss cdse : Int) (st : Option Int × Option Int)
    (x : Int × Int × Int) :
    (startStopStep "+" cdss cdse st x).1 =
      if x.1 ≤ cdss ∧ cdss ≤ x.2.1 then some (x.2.2 + cdss - x.1) else st.1 := by
  unfold startStopStep
  by_cases h1 : x.1 ≤ cdss ∧ cdss ≤ x.2.1 <;>
    by_cases h2 : x.1 ≤ cdse ∧ cdse ≤ x.2.1 <;> simp [h1, h2]

theorem startStopStep_snd_plus (cdss cdse : Int) (st : Option Int × Option Int)
    (x : Int × Int × Int) :
    (startStopStep "+" cdss cdse st x).2 =
      if x.1 ≤ cdse ∧ cdse ≤ x.2.1 then some (x.2.2 + cdse - x.1) else st.2 := by
  unfold startStopStep
  by_cases h1 : x.1 ≤ cdss ∧ cdss ≤ x.2.1 <;>
    by_cases h2 : x.1 ≤ cdse ∧ cdse ≤ x.2.1 <;> simp [h1, h2]

theorem startStopStep_fst_other (s : String) (hs : ¬ s = "+") (cdss cdse : Int)
    (st : Option Int × Option Int) (x : Int × Int × Int) :
    (startStopStep s cdss cdse st x).1 =
      if x.1 ≤ cdse ∧ cdse ≤ x.2.1 then some (x.2.2 + x.2.1 - cdse) else st.1 := by
  unfold startStopStep
  by_cases h1 : x.1 ≤ cdss ∧ cdss ≤ x.2.1 <;>
    by_cases h2 : x.1 ≤ cdse ∧ cdse ≤ x.2.1 <;> simp [h1, h2, hs]

theorem startStopStep_snd_other (s : String) (hs : ¬ s = "+") (cdss cdse : Int)
    (st : Option Int × Option Int) (x : Int × Int × Int) :
    (startStopStep s cdss cdse st x).2 =
      if x.1 ≤ cdss ∧ cdss ≤ x.2.1 then some (x.2.2 + x.2.1 - cdss) else st.2 := by
  unfold startStopStep
  by_cases h1 : x.1 ≤ cdss ∧ cdss ≤ x.2.1 <;>
    by_cases h2 : x.1 ≤ cdse ∧ cdse ≤ x.2.1 <;> simp [h1, h2, hs]

theorem foldl_lastContaining (c : Int) (f : Int × Int × Int → Int)
    (step : (Option Int × Option Int) → (Int × Int × Int) → Option Int × Option Int)
    (proj : Option Int × Option Int → Option Int)
    (hstep : ∀ st x, proj (step st x) =
      if x.1 ≤ c ∧ c ≤ x.2.1 then some (f x) else proj st) :
    ∀ (l : List (Int × Int × Int)) (st : Option Int × Option Int),
      proj (List.foldl step st l) =
        match lastContaining c l with
        | some x => some (f x)
        | none => proj st := by
  intro l
  induction l with
  | nil => intro st; rfl
  | cons x rest ih =>
    intro st
    rw [List.foldl_cons, ih]
    simp only [lastContaining]
    cases hlc : lastContaining c rest with
    | some y => simp
    | none =>
      by_cases hc : x.1 ≤ c ∧ c ≤ x.2.1
      · simp [hstep, hc]
      · simp [hstep, hc]

theorem lastContaining_eq_none (c : Int) (l : List (Int × Int × Int)) :
    lastContaining c l = none ↔ ∀ x ∈ l, ¬ (x.1 ≤ c ∧ c ≤ x.2.1) := by
  induction l with
  | nil => simp [lastContaining]
  | cons x rest ih =>
    simp only [lastContaining, List.mem_cons]
    cases hlc : lastContaining c rest with
    | some y =>
      simp only []
      constructor
      · intro h; exact absurd h (by simp)
      · intro h
        exact absurd (ih.mpr fun z hz => h z (Or.inr hz)) (by simp [hlc])
    | none =>
      simp only []
      rw [hlc] at ih
      constructor
      · intro h
        by_cases hc : x.1 ≤ c ∧ c ≤ x.2.1
        · rw [if_pos hc] at h; exact absurd h (by simp)
        · rintro z (rfl | hz)
          · exact hc
          · exact (ih.mp rfl) z hz
      · intro h
        rw [if_neg (h x (Or.inl rfl))]

theorem lastContaining_of_unique (c : Int) (l : List (Int × Int × Int)) :
    ∀ i : Nat, i < l.length →
      ((l.getD i (0, 0, 0)).1 ≤ c ∧ c ≤ (l.getD i (0, 0, 0)).2.1) →
      (∀ j : Nat, j < l.length → (l.getD j (0, 0, 0)).1 ≤ c →
        c ≤ (l.getD j (0, 0, 0)).2.1 → j = i) →
      lastContaining c l = some (l.getD i (0, 0, 0)) := by
  induction l with
  | nil => intro i hi; simp at hi
  | cons x rest ih =>
    intro i hi hcont huniq
    cases i with
    | zero =>
      have hnone : lastContaining c rest = none := by
        rw [lastContaining_eq_none]
        intro z hz hc
        obtain ⟨j, hj, rfl⟩ := List.mem_iff_getElem.mp hz
        have hjz : rest.getD j (0, 0, 0) = rest[j] := getD_of_lt _ _ _ hj
        have := huniq (j + 1) (by simpa using Nat.succ_lt_succ hj)
          (by rw [List.getD_cons_succ, hjz]; exact hc.1)
          (by rw [List.getD_cons_succ, hjz]; exact hc.2)
        simp at this
      simp only [lastContaining, hnone]
      rw [if_pos (by simpa using hcont)]
      simp
    | succ j =>
      have hj : j < rest.length := by simpa using hi
      have hrest := ih j hj (by simpa using hcont) ?_
      · simp only [lastContaining, hrest]
        simp
      · intro j2 hj2 h1 h2
        have := huniq (j2 + 1) (by simpa using Nat.succ_lt_succ hj2)
          (by simpa using h1) (by simpa using h2)
        omega

theorem zip3_getD (l1 l2 l3 : List Int) (i : Nat)
    (h1 : i < l1.length) (h2 : i < l2.length) (h3 : i < l3.length) :
    (l1.zip (l2.zip l3)).getD i (0, 0, 0) =
      (l1.getD i 0, l2.getD i 0, l3.getD i 0) := by
  have hz : i < (l1.zip (l2.zip l3)).length := by
    simp only [List.length_zip]
    omega
  rw [getD_of_lt _ _ _ hz, getD_of_lt _ _ _ h1, getD_of_lt _ _ _ h2, getD_of_lt _ _ _ h3]
  simp [List.getElem_zip]

theorem Transcript.transStarts_length (t : Transcript)
    (hs : t.strand = "+" ∨ t.strand = "-") :
    t.transStarts.length = t.exons.length := by
  rw [Transcript.transStarts, List.length_map, t.transExons_length hs]

/-- C4: CDS-start equal to CDS-end yields the sentinel -1 for both landmarks;
otherwise, for the unique exon i whose genomic span contains CDS-start, on the
plus strand the ATG position is local-start[i] + (CDS-start - genomic-start[i])
and on the minus strand the stop position is
local-start[i] + (genomic-end[i] - CDS-start); symmetrically, the unique exon
containing CDS-end determines the plus-strand stop position and the
minus-strand ATG position. -/
theorem C4_coding_landmarks (t : Transcript)
    (hlen : t.genomicStarts.length = t.genomicEnds.length) :
    (t.cdss = t.cdse → t.ctis = some (-1) ∧ t.stopPos = some (-1)) ∧
    (t.cdss ≠ t.cdse → (t.strand = "+" ∨ t.strand = "-") →
      ∀ i : Nat, i < t.genomicStarts.length →
        ((t.genomicStarts.getD i 0 ≤ t.cdss ∧ t.cdss ≤ t.genomicEnds.getD i 0) →
         (∀ j : Nat, j < t.genomicStarts.length →
            t.genomicStarts.getD j 0 ≤ t.cdss → t.cdss ≤ t.genomicEnds.getD j 0 →
            j = i) →
         (t.strand = "+" →
            t.ctis = some (t.transStarts.getD i 0 + t.cdss - t.genomicStarts.getD i 0)) ∧
         (t.strand = "-" →
            t.stopPos =
              some (t.transStarts.getD i 0 + t.genomicEnds.getD i 0 - t.cdss))) ∧
        ((t.genomicStarts.getD i 0 ≤ t.cdse ∧ t.cdse ≤ t.genomicEnds.getD i 0) →
         (∀ j : Nat, j < t.genomicStarts.length →
            t.genomicStarts.getD j 0 ≤ t.cdse → t.cdse ≤ t.genomicEnds.getD j 0 →
            j = i) →
         (t.strand = "+" →
            t.stopPos =
              some (t.transStarts.getD i 0 + t.cdse - t.genomicStarts.getD i 0)) ∧
         (t.strand = "-" →
            t.ctis =
              some (t.transStarts.getD i 0 + t.genomicEnds.getD i 0 - t.cdse)))) := by
  constructor
  · intro heq
    constructor <;>
      simp [Transcript.ctis, Transcript.stopPos, Transcript.startStop, heq]
  · intro hne hs i hi
    have hexlen : t.exons.length = t.genomicStarts.length := by
      rw [Transcript.exons, List.length_zip]
      omega
    have htslen : t.transStarts.length = t.genomicStarts.length := by
      rw [t.transStarts_length hs, hexlen]
    have hize : i < t.genomicEnds.length := by omega
    have hits : i < t.transStarts.length := by omega
    have hzlen : (t.genomicStarts.zip (t.genomicEnds.zip t.transStarts)).length =
        t.genomicStarts.length := by
      simp only [List.length_zip]
      omega
    have hiz : i < (t.genomicStarts.zip (t.genomicEnds.zip t.transStarts)).length := by
      omega
    have hzgetD : ∀ j : Nat, j < t.genomicStarts.length →
        (t.genomicStarts.zip (t.genomicEnds.zip t.transStarts)).getD j (0, 0, 0) =
          (t.genomicStarts.getD j 0, t.genomicEnds.getD j 0, t.transStarts.getD j 0) :=
      fun j hj => zip3_getD _ _ _ j hj (by omega) (by omega)
    constructor
    · intro hcont huniq
      have hlast : lastContaining t.cdss
          (t.genomicStarts.zip (t.genomicEnds.zip t.transStarts)) =
          some ((t.genomicStarts.zip (t.genomicEnds.zip t.transStarts)).getD i (0, 0, 0)) := by
        apply lastContaining_of_unique _ _ i hiz
        · rw [hzgetD i hi]
          exact hcont
        · intro j hj h1 h2
          rw [hzlen] at hj
          rw [hzgetD j hj] at h1 h2
          exact huniq j hj h1 h2
      constructor
      · intro hp
        rw [Transcript.ctis, Transcript.startStop, if_neg hne, hp]
        rw [foldl_lastContaining t.cdss (fun x => x.2.2 + t.cdss - x.1) _ Prod.fst
          (startStopStep_fst_plus t.cdss t.cdse), hlast, hzgetD i hi]
      · intro hm
        have hmp : ¬ t.strand = "+" := by rw [hm]; decide
        rw [Transcript.stopPos, Transcript.startStop, if_neg hne]
        rw [foldl_lastContaining t.cdss (fun x => x.2.2 + x.2.1 - t.cdss) _ Prod.snd
          (startStopStep_snd_other t.strand hmp t.cdss t.cdse), hlast, hzgetD i hi]
    · intro hcont huniq
      have hlast : lastContaining t.cdse
          (t.genomicStarts.zip (t.genomicEnds.zip t.transStarts)) =
          some ((t.genomicStarts.zip (t.genomicEnds.zip t.transStarts)).getD i (0, 0, 0)) := by
        apply lastContaining_of_unique _ _ i hiz
        · rw [hzgetD i hi]
          exact hcont
        · intro j hj h1 h2
          rw [hzlen] at hj
          rw [hzgetD j hj] at h1 h2
          exact huniq j hj h1 h2
      constructor
      · intro hp
        rw [Transcript.stopPos, Transcript.startStop, if_neg hne, hp]
        rw [foldl_lastContaining t.cdse (fun x => x.2.2 + t.cdse - x.1) _ Prod.snd
          (startStopStep_snd_plus t.cdss t.cdse), hlast, hzgetD i hi]
      · intro hm
        have hmp : ¬ t.strand = "+" := by rw [hm]; decide
        rw [Transcript.ctis, Transcript.startStop, if_neg hne]
        rw [foldl_lastContaining t.cdse (fun x => x.2.2 + x.2.1 - t.cdse) _ Prod.fst
          (startStopStep_fst_other t.strand hmp t.cdss t.cdse), hlast, hzgetD i hi]

/-- Closed instance of C4 at the specification's minus-strand example:
CDS-start 120 lies in exon 0 and gives stop = 20 + (150 - 120) = 50, CDS-end
310 lies in exon 1 and gives ATG = 0 + (320 - 310) = 10. -/
theorem C4_coding_landmarks_witness :
    wtMinus.stopPos = some 50 ∧ wtMinus.ctis = some 10 := by
  have h := C4_coding_landmarks wtMinus (by decide)
  have h1 := ((h.2 (by decide) (Or.inr rfl) 0 (by decide)).1 (by decide)
    (by decide)).2 rfl
  have h2 := ((h.2 (by decide) (Or.inr rfl) 1 (by decide)).2 (by decide)
    (by decide)).2 rfl
  exact ⟨h1.trans (by decide), h2.trans (by decide)⟩

theorem alistGet_alistSet_same {kt bt : Type} [DecidableEq kt]
    (d : List (kt × bt)) (k : kt) (v : bt) :
    alistGet (alistSet d k v) k = some v := by
  induction d with
  | nil => simp [alistGet, alistSet]
  | cons p rest ih =>
    obtain ⟨k2, v2⟩ := p
    by_cases hk : k2 = k
    · simp [alistGet, alistSet, hk]
    · simp [alistGet, alistSet, hk, ih]

theorem alistGet_alistSet_other {kt bt : Type} [DecidableEq kt]
    (d : List (kt × bt)) (k k2 : kt) (v : bt) (hk : k2 ≠ k) :
    alistGet (alistSet d k v) k2 = alistGet d k2 := by
  have hne : ¬ k = k2 := fun h => hk h.symm
  induction d with
  | nil => simp [alistGet, alistSet, hne]
  | cons p rest ih =>
    obtain ⟨k3, v3⟩ := p
    by_cases hk3 : k3 = k
    · subst hk3
      simp [alistGet, alistSet, hne]
    · simp [alistGet, alistSet, hk3, ih]

theorem alistGet_mem {kt bt : Type} [DecidableEq kt]
    (d : List (kt × bt)) (k : kt) (v : bt) (h : alistGet d k = some v) :
    (k, v) ∈ d := by
  induction d with
  | nil => simp [alistGet] at h
  | cons p rest ih =>
    obtain ⟨k2, v2⟩ := p
    rw [alistGet] at h
    by_cases hk : k2 = k
    · rw [if_pos hk] at h
      subst hk
      have hv : v2 = v := by injection h
      subst hv
      exact List.mem_cons_self _ _
    · rw [if_neg hk] at h
      exact List.mem_cons_of_mem _ (ih h)

theorem alistSet_of_absent {kt bt : Type} [DecidableEq kt]
    (d : List (kt × bt)) (k : kt) (v : bt) (h : alistGet d k = none) :
    alistSet d k v = d ++ [(k, v)] := by
  induction d with
  | nil => simp [alistSet]
  | cons p rest ih =>
    obtain ⟨k2, v2⟩ := p
    rw [alistGet] at h
    by_cases hk : k2 = k
    · rw [if_pos hk] at h
      simp at h
    · rw [if_neg hk] at h
      simp [alistSet, hk, ih h]

theorem alistSet_keys_of_present {kt bt : Type} [DecidableEq kt]
    (d : List (kt × bt)) (k : kt) (v v2 : bt) (h : alistGet d k = some v2) :
    (alistSet d k v).map Prod.fst = d.map Prod.fst := by
  induction d with
  | nil => simp [alistGet] at h
  | cons p rest ih =>
    obtain ⟨k3, v3⟩ := p
    rw [alistGet] at h
    by_cases hk : k3 = k
    · simp [alistSet, hk]
    · rw [if_neg hk] at h
      simp [alistSet, hk, ih h]

theorem alistGet_none_iff_not_memKeys {kt bt : Type} [DecidableEq kt]
    (d : List (kt × bt)) (k : kt) :
    alistGet d k = none ↔ k ∉ d.map Prod.fst := by
  induction d with
  | nil => simp [alistGet]
  | cons p rest ih =>
    obtain ⟨k2, v2⟩ := p
    rw [alistGet]
    by_cases hk : k2 = k
    · subst hk
      simp
    · rw [if_neg hk, ih]
      simp only [List.map_cons, List.mem_cons]
      constructor
      · intro h hmem
        rcases hmem with heq | hmem2
        · exact hk heq.symm
        · exact h hmem2
      · intro h hmem
        exact h (Or.inr hmem)

theorem alist_nodup_mem_get {kt bt : Type} [DecidableEq kt]
    (d : List (kt × bt)) (hnd : (d.map Prod.fst).Nodup) (k : kt) (v : bt)
    (hmem : (k, v) ∈ d) : alistGet d k = some v := by
  induction d with
  | nil => simp at hmem
  | cons p rest ih =>
    obtain ⟨k2, v2⟩ := p
    rw [List.map_cons, List.nodup_cons] at hnd
    rcases List.mem_cons.mp hmem with heq | hmem2
    · rw [alistGet]
      obtain ⟨rfl, rfl⟩ := Prod.mk.injEq k2 v2 k v ▸ heq.symm
      simp
    · rw [alistGet]
      by_cases hk : k2 = k
      · subst hk
        exact absurd (List.mem_map.mpr ⟨(k2, v), hmem2, rfl⟩) hnd.1
      · rw [if_neg hk]
        exact ih hnd.2 hmem2

theorem addToGroups_nodup_keys (key : TKey)
    (gs : List (Sum Nat String × List Transcript)) (t : Transcript)
    (hnd : (gs.map Prod.fst).Nodup) :
    ((addToGroups key gs t).map Prod.fst).Nodup := by
  rw [addToGroups]
  cases hg : alistGet gs (keyOf key t) with
  | none =>
    rw [alistSet_of_absent _ _ _ hg, List.map_append]
    simp only [List.map_cons, List.map_nil]
    rw [List.nodup_append]
    refine ⟨hnd, List.nodup_singleton _, ?_⟩
    intro a ha hb
    simp at hb
    subst hb
    exact absurd ha ((alistGet_none_iff_not_memKeys gs _).mp hg)
  | some l =>
    rw [alistSet_keys_of_present _ _ _ _ hg]
    exact hnd

theorem build_transcriptome_nodup_keys (txs : List Transcript) (key : TKey) :
    ((build_transcriptome txs key).map Prod.fst).Nodup := by
  rw [build_transcriptome]
  have : ∀ (ts : List Transcript) (gs : List (Sum Nat String × List Transcript)),
      (gs.map Prod.fst).Nodup → ((ts.foldl (addToGroups key) gs).map Prod.fst).Nodup := by
    intro ts
    induction ts with
    | nil => intro gs h; exact h
    | cons t rest ih =>
      intro gs h
      exact ih _ (addToGroups_nodup_keys key gs t h)
  exact this txs [] (by simp)

theorem build_foldl_get (key : TKey) (ts : List Transcript) :
    ∀ (gs : List (Sum Nat String × List Transcript)) (k : Sum Nat String),
      alistGet (ts.foldl (addToGroups key) gs) k =
        match alistGet gs k with
        | some g => some (g ++ ts.filter (fun t => keyOf key t = k))
        | none =>
            if ts.filter (fun t => keyOf key t = k) = [] then none
            else some (ts.filter (fun t => keyOf key t = k)) := by
  induction ts with
  | nil =>
    intro gs k
    cases hg : alistGet gs k <;> simp [hg]
  | cons t rest ih =>
    intro gs k
    rw [List.foldl_cons, ih]
    by_cases hk : keyOf key t = k
    · subst hk
      cases hg : alistGet gs (keyOf key t) with
      | none =>
        rw [addToGroups, hg]
        rw [show alistGet (alistSet gs (keyOf key t) [t]) (keyOf key t) = some [t] from
          alistGet_alistSet_same _ _ _]
        simp [hg, List.filter_cons]
      | some g =>
        rw [addToGroups, hg]
        rw [show alistGet (alistSet gs (keyOf key t) (g ++ [t])) (keyOf key t) =
          some (g ++ [t]) from alistGet_alistSet_same _ _ _]
        simp [hg, List.filter_cons]
    · have hget : alistGet (addToGroups key gs t) k = alistGet gs k := by
        rw [addToGroups]
        cases hg : alistGet gs (keyOf key t) with
        | none => exact alistGet_alistSet_other _ _ _ _ (fun h => hk h.symm)
        | some g => exact alistGet_alistSet_other _ _ _ _ (fun h => hk h.symm)
      rw [hget]
      have hfil : List.filter (fun u => decide (keyOf key u = k)) (t :: rest) =
          List.filter (fun u => decide (keyOf key u = k)) rest := by
        rw [List.filter_cons]
        simp [hk]
      cases hg : alistGet gs k <;> simp [hfil]

theorem mem_gen2trConversionTranscripts
    (gs : List (Sum Nat String × List Transcript)) (t : Transcript) :
    t ∈ gen2trConversionTranscripts gs ↔ ∃ p ∈ gs, p.2.length = 1 ∧ t ∈ p.2 := by
  induction gs with
  | nil => simp [gen2trConversionTranscripts]
  | cons g rest ih =>
    rw [gen2trConversionTranscripts]
    by_cases hg : g.2.length = 1
    · rw [if_pos hg]
      simp only [List.mem_append, ih]
      constructor
      · rintro (ht | ⟨p, hp, h1, h2⟩)
        · exact ⟨g, List.mem_cons_self _ _, hg, ht⟩
        · exact ⟨p, List.mem_cons_of_mem _ hp, h1, h2⟩
      · rintro ⟨p, hp, h1, h2⟩
        rcases List.mem_cons.mp hp with rfl | hp2
        · exact Or.inl h2
        · exact Or.inr ⟨p, hp2, h1, h2⟩
    · rw [if_neg hg]
      rw [ih]
      constructor
      · rintro ⟨p, hp, h1, h2⟩
        exact ⟨p, List.mem_cons_of_mem _ hp, h1, h2⟩
      · rintro ⟨p, hp, h1, h2⟩
        rcases List.mem_cons.mp hp with rfl | hp2
        · exact absurd h1 hg
        · exact ⟨p, hp2, h1, h2⟩

/-- Counterexample to C7 as stated: in the pipeline the collection feeding the
remapper is keyed by transcript id, so a transcript whose synthetic-unique-id
group is a singleton (as every such group is) still contributes nothing when
another record shares its transcript id. -/
theorem C7_counterexample :
    alistGet (build_transcriptome [dupA, dupB] TKey.uid) (Sum.inl dupA.uid) =
      some [dupA] ∧
    dupA ∉ mainConversionInput [dupA, dupB] := by
  constructor <;> decide

/-- C7 amended: a transcript contributes exon conversion records to the
peak-remapping step exactly when it is the sole member of its transcript-id
group in the txid-keyed collection that `__main__` feeds to `gen2tr`. -/
theorem C7_participation_by_txid (txs : List Transcript) (t : Transcript)
    (ht : t ∈ txs) :
    t ∈ mainConversionInput txs ↔
      (txs.filter (fun u => u.id = t.id)).length = 1 := by
  have hfil : txs.filter (fun u => keyOf TKey.txid u = Sum.inr t.id) =
      txs.filter (fun u => u.id = t.id) := by
    apply List.filter_congr
    intro u _
    simp [keyOf]
  have hget := build_foldl_get TKey.txid txs [] (Sum.inr t.id)
  rw [show alistGet ([] : List (Sum Nat String × List Transcript)) (Sum.inr t.id) =
    none from rfl] at hget
  rw [mainConversionInput, mem_gen2trConversionTranscripts]
  constructor
  · rintro ⟨p, hp, h1, h2⟩
    obtain ⟨k, g⟩ := p
    simp only at h1 h2
    have hgp := alist_nodup_mem_get _ (build_transcriptome_nodup_keys txs TKey.txid)
      k g hp
    rw [build_transcriptome] at hgp
    have hk := build_foldl_get TKey.txid txs [] k
    rw [show alistGet ([] : List (Sum Nat String × List Transcript)) k =
      none from rfl, hgp] at hk
    by_cases hemp : txs.filter (fun u => keyOf TKey.txid u = k) = []
    · rw [if_pos hemp] at hk
      exact absurd hk (by simp)
    · rw [if_neg hemp] at hk
      have hg : g = txs.filter (fun u => keyOf TKey.txid u = k) := by
        injection hk
      have hkt : keyOf TKey.txid t = k := by
        have := List.of_mem_filter (hg ▸ h2)
        simpa using this
      rw [keyOf] at hkt
      rw [← hkt, hfil] at hg
      rw [hg] at h1
      exact h1
  · intro hlen
    have hmem : t ∈ txs.filter (fun u => u.id = t.id) :=
      List.mem_filter.mpr ⟨ht, by simp⟩
    obtain ⟨a, ha⟩ := List.length_eq_one.mp hlen
    rw [ha] at hmem
    have hta : t = a := by simpa using hmem
    subst hta
    have hne : txs.filter (fun u => keyOf TKey.txid u = Sum.inr t.id) ≠ [] := by
      rw [hfil, ha]
      simp
    rw [if_neg hne, hfil, ha] at hget
    have hmem2 := alistGet_mem _ _ _ hget
    rw [← build_transcriptome] at hmem2
    exact ⟨(Sum.inr t.id, [t]), hmem2, by simp, by simp⟩

/-- Closed instance of the amended C7: a transcript with a unique transcript id
does participate. -/
theorem C7_participation_by_txid_witness : dupA ∈ mainConversionInput [dupA] :=
  (C7_participation_by_txid [dupA] dupA (by decide)).mpr (by decide)

theorem chooseRun_spec (gd : String → Option (String × Nat)) :
    ∀ (lines : List ExpLine) (st : SelState), st.c ≤ 5 →
      (chooseRun gd st lines = Except.error () ↔
        5 < st.c + (lines.filter (fun l => (gd l.isoform).isNone)).length) ∧
      (∀ st2, chooseRun gd st lines = Except.ok st2 →
        st2.c = st.c + (lines.filter (fun l => (gd l.isoform).isNone)).length ∧
        st2.isoDict = lines.foldl (selDictStep gd) st.isoDict) := by
  intro lines
  induction lines with
  | nil =>
    intro st hc
    constructor
    · simp [chooseRun]
      omega
    · intro st2 h2
      rw [chooseRun] at h2
      injection h2 with h2
      subst h2
      simp
  | cons line rest ih =>
    intro st hc
    cases hgd : gd line.isoform with
    | some p =>
      obtain ⟨gene, coding⟩ := p
      have hstep : chooseStep gd st line =
          Except.ok ⟨selDictStep gd st.isoDict line, st.c⟩ := by
        cases halist : alistGet st.isoDict gene <;>
          simp [chooseStep, selDictStep, hgd, halist]
      have hrun : chooseRun gd st (line :: rest) =
          chooseRun gd ⟨selDictStep gd st.isoDict line, st.c⟩ rest := by
        rw [chooseRun, hstep]
      have hfil : (line :: rest).filter (fun l => (gd l.isoform).isNone) =
          rest.filter (fun l => (gd l.isoform).isNone) := by
        rw [List.filter_cons]
        simp [hgd]
      have hih := ih ⟨selDictStep gd st.isoDict line, st.c⟩ hc
      constructor
      · rw [hrun, hfil]
        exact hih.1
      · intro st2 h2
        rw [hrun] at h2
        have := hih.2 st2 h2
        rw [hfil, List.foldl_cons]
        exact this
    | none =>
      have hfil : (line :: rest).filter (fun l => (gd l.isoform).isNone) =
          line :: rest.filter (fun l => (gd l.isoform).isNone) := by
        rw [List.filter_cons]
        simp [hgd]
      by_cases habort : st.c + 1 > 5
      · have hstep : chooseStep gd st line = Except.error () := by
          simp [chooseStep, hgd, habort]
        have hrun : chooseRun gd st (line :: rest) = Except.error () := by
          rw [chooseRun, hstep]
        constructor
        · rw [hrun, hfil]
          simp
          omega
        · intro st2 h2
          rw [hrun] at h2
          exact absurd h2 (by simp)
      · have hstep : chooseStep gd st line =
            Except.ok ⟨st.isoDict, st.c + 1⟩ := by
          simp [chooseStep, hgd, habort]
        have hrun : chooseRun gd st (line :: rest) =
            chooseRun gd ⟨st.isoDict, st.c + 1⟩ rest := by
          rw [chooseRun, hstep]
        have hih := ih ⟨st.isoDict, st.c + 1⟩ (by show st.c + 1 ≤ 5; omega)
        have hc2 : (⟨st.isoDict, st.c + 1⟩ : SelState).c = st.c + 1 := rfl
        rw [hc2] at hih
        constructor
        · rw [hrun, hfil]
          rw [hih.1]
          simp
          omega
        · intro st2 h2
          rw [hrun] at h2
          have := hih.2 st2 h2
          rw [hfil, List.foldl_cons]
          simp only [List.length_cons]
          constructor
          · omega
          · have hsel : selDictStep gd st.isoDict line = st.isoDict := by
              simp [selDictStep, hgd]
            rw [hsel]
            exact this.2
      
theorem foldl_selDictStep_filter (gd : String → Option (String × Nat)) :
    ∀ (lines : List ExpLine) (d : List (String × IsoChoice)),
      lines.foldl (selDictStep gd) d =
        (lines.filter (fun l => (gd l.isoform).isSome)).foldl (selDictStep gd) d := by
  intro lines
  induction lines with
  | nil => intro d; rfl
  | cons line rest ih =>
    intro d
    rw [List.foldl_cons, List.filter_cons]
    cases hgd : gd line.isoform with
    | some p =>
      simp only [hgd, Option.isSome_some, decide_True, List.foldl_cons]
      exact ih _
    | none =>
      have hsel : selDictStep gd d line = d := by
        simp [selDictStep, hgd]
      simp only [hgd, Option.isSome_none, decide_False, hsel]
      exact ih d

/-- C8: an expression isoform absent from the annotation index is counted and
skipped (it never touches the per-gene winner dictionary), the run aborts
fatally exactly when more than 5 absent isoforms occur, and on success the
counter equals the number of absent isoforms while the winner dictionary is
the fold over the matched records alone. -/
theorem C8_unmatched_tolerance (gd : String → Option (String × Nat))
    (lines : List ExpLine) :
    (choose_selected_cufflinks gd lines = Except.error () ↔
      5 < (lines.filter (fun l => (gd l.isoform).isNone)).length) ∧
    (∀ st, choose_selected_cufflinks gd lines = Except.ok st →
      st.c = (lines.filter (fun l => (gd l.isoform).isNone)).length ∧
      st.isoDict =
        (lines.filter (fun l => (gd l.isoform).isSome)).foldl (selDictStep gd) []) := by
  have h := chooseRun_spec gd lines ⟨[], 0⟩ (by show 0 ≤ 5; omega)
  have e1 : (⟨[], 0⟩ : SelState).c = 0 := rfl
  have e2 : (⟨[], 0⟩ : SelState).isoDict = [] := rfl
  rw [e1, e2] at h
  simp only [Nat.zero_add] at h
  rw [choose_selected_cufflinks]
  constructor
  · exact h.1
  · intro st hst
    have h2 := h.2 st hst
    rw [foldl_selDictStep_filter] at h2
    exact h2

/-- Closed instance of C8: six absent isoforms abort the run. -/
theorem C8_unmatched_tolerance_witness :
    choose_selected_cufflinks gdNone sixUnknown = Except.error () ∧
    ¬ (choose_selected_cufflinks gdNone
        [⟨"u1", 0, 0⟩, ⟨"u2", 0, 0⟩, ⟨"u3", 0, 0⟩, ⟨"u4", 0, 0⟩, ⟨"u5", 0, 0⟩] =
      Except.error ()) := by
  constructor
  · exact (C8_unmatched_tolerance gdNone sixUnknown).1.mpr (by decide)
  · intro hc
    have := (C8_unmatched_tolerance gdNone
      [⟨"u1", 0, 0⟩, ⟨"u2", 0, 0⟩, ⟨"u3", 0, 0⟩, ⟨"u4", 0, 0⟩, ⟨"u5", 0, 0⟩]).1.mp hc
    revert this
    decide

/-- C2 is violated by the code: the same two expression records for one gene,
fed in the two possible orders, produce different winners — with the coding
isoform first, the longer non-coding isoform takes the tie-break, with the
non-coding isoform first, the coding one does. -/
theorem C2_order_dependence :
    ([lineA, lineB]).Perm [lineB, lineA] ∧
    selWinner gdBug [lineA, lineB] "geneG" = some "isoB" ∧
    selWinner gdBug [lineB, lineA] "geneG" = some "isoA" := by
  refine ⟨?_, by decide, by decide⟩
  decide

/-- C3 is violated by the code: with the coding isoform (fpkm 5, length 800)
processed first and the non-coding isoform (fpkm 5, length 1200) second, the
third tie-break branch fires (equal fpkm, longer length) because it does not
re-check the coding flags, and the non-coding isoform wins. -/
theorem C3_coding_tiebreak_bug :
    selWinner gdBug [lineA, lineB] "geneG" = some "isoB" ∧ "isoB" ≠ "isoA" := by
  exact ⟨by decide, by decide⟩

/-- C6: for every overlap record the remapper emits the transcript-local
segment shifted by the gap between peak and exon boundary — zero when the
peak reaches the exon boundary (plus strand: peak start at or before exon
start; minus strand: peak end at or beyond exon end), and the boundary
distance otherwise — with width equal to the overlap. -/
theorem C6_peak_remap (r : OverlapRecord) :
    (r.strand = "+" →
      gen2trSegment r = some ⟨r.uid, r.trExonStart + max 0 (r.pStart - r.exSt),
        r.trExonStart + max 0 (r.pStart - r.exSt) + r.overlap, r.peakId⟩) ∧
    (r.strand = "-" →
      gen2trSegment r = some ⟨r.uid, r.trExonStart + max 0 (r.exEnd - r.pEnd),
        r.trExonStart + max 0 (r.exEnd - r.pEnd) + r.overlap, r.peakId⟩) := by
  constructor
  · intro h
    rw [gen2trSegment, if_pos h]
    by_cases hc : r.pStart ≤ r.exSt
    · rw [if_pos hc]
      have hm : max 0 (r.pStart - r.exSt) = 0 := max_eq_left (by omega)
      rw [hm, add_zero]
    · rw [if_neg hc]
      have hm : max 0 (r.pStart - r.exSt) = r.pStart - r.exSt :=
        max_eq_right (by omega)
      rw [hm]
  · intro h
    have hnp : ¬ r.strand = "+" := by rw [h]; decide
    rw [gen2trSegment, if_neg hnp, if_pos h]
    by_cases hc : r.pEnd ≥ r.exEnd
    · rw [if_pos hc]
      have hm : max 0 (r.exEnd - r.pEnd) = 0 := max_eq_left (by omega)
      rw [hm, add_zero]
    · rw [if_neg hc]
      have hm : max 0 (r.exEnd - r.pEnd) = r.exEnd - r.pEnd :=
        max_eq_right (by omega)
      rw [hm]

/-- Closed instance of C6 at the specification's example: peak (1050,1200) on
a plus-strand exon (1000,1100) with local start 200 and overlap 50 maps to
segment (250, 300). -/
theorem C6_peak_remap_witness :
    gen2trSegment exampleRecordPlus = some ⟨"7", 250, 300, "peak1"⟩ :=
  ((C6_peak_remap exampleRecordPlus).1 rfl).trans (by decide)

/-- C10: under either strand and either boundary branch, the emitted segment
width equals the overlap length of the record — the gap shift translates the
segment without changing its width. -/
theorem C10_width_preservation (r : OverlapRecord) (seg : MappedSegment)
    (h : gen2trSegment r = some seg) :
    seg.segEnd - seg.segStart = r.overlap := by
  rw [gen2trSegment] at h
  by_cases h1 : r.strand = "+"
  · rw [if_pos h1] at h
    by_cases h2 : r.pStart ≤ r.exSt
    · rw [if_pos h2] at h
      injection h with h
      subst h
      show r.trExonStart + r.overlap - r.trExonStart = r.overlap
      omega
    · rw [if_neg h2] at h
      injection h with h
      subst h
      show r.trExonStart + (r.pStart - r.exSt) + r.overlap -
        (r.trExonStart + (r.pStart - r.exSt)) = r.overlap
      omega
  · rw [if_neg h1] at h
    by_cases h3 : r.strand = "-"
    · rw [if_pos h3] at h
      by_cases h2 : r.pEnd ≥ r.exEnd
      · rw [if_pos h2] at h
        injection h with h
        subst h
        show r.trExonStart + r.overlap - r.trExonStart = r.overlap
        omega
      · rw [if_neg h2] at h
        injection h with h
        subst h
        show r.trExonStart + (r.exEnd - r.pEnd) + r.overlap -
          (r.trExonStart + (r.exEnd - r.pEnd)) = r.overlap
        omega
    · rw [if_neg h3] at h
      exact absurd h (by simp)

/-- Closed instance of C10 at a minus-strand record with a 40-unit gap. -/
theorem C10_width_preservation_witness :
    gen2trSegment exampleRecordMinus = some ⟨"8", 240, 300, "peak2"⟩ ∧
    (300 : Int) - 240 = exampleRecordMinus.overlap := by
  constructor
  · decide
  · have h := C10_width_preservation exampleRecordMinus ⟨"8", 240, 300, "peak2"⟩
      (by decide)
    simpa using h

theorem foldl_min_mem (xs : List Int) : ∀ a : Int, xs.foldl min a ∈ a :: xs := by
  induction xs with
  | nil => intro a; simp
  | cons y ys ih =>
    intro a
    rw [List.foldl_cons]
    rcases List.mem_cons.mp (ih (min a y)) with heq | hmem
    · rcases min_choice a y with h | h <;> rw [heq, h]
      · exact List.mem_cons_self _ _
      · exact List.mem_cons_of_mem _ (List.mem_cons_self _ _)
    · exact List.mem_cons_of_mem _ (List.mem_cons_of_mem _ hmem)

theorem foldl_min_le_init (xs : List Int) : ∀ a : Int, xs.foldl min a ≤ a := by
  induction xs with
  | nil => intro a; simp
  | cons y ys ih =>
    intro a
    rw [List.foldl_cons]
    exact le_trans (ih (min a y)) (min_le_left a y)

theorem foldl_min_le_mem (xs : List Int) : ∀ a x : Int, x ∈ xs → xs.foldl min a ≤ x := by
  induction xs with
  | nil => intro a x hx; simp at hx
  | cons y ys ih =>
    intro a x hx
    rw [List.foldl_cons]
    rcases List.mem_cons.mp hx with rfl | hx2
    · exact le_trans (foldl_min_le_init ys (min a x)) (min_le_right a x)
    · exact ih (min a y) x hx2

theorem foldl_max_mem (xs : List Int) : ∀ a : Int, xs.foldl max a ∈ a :: xs := by
  induction xs with
  | nil => intro a; simp
  | cons y ys ih =>
    intro a
    rw [List.foldl_cons]
    rcases List.mem_cons.mp (ih (max a y)) with heq | hmem
    · rcases max_choice a y with h | h <;> rw [heq, h]
      · exact List.mem_cons_self _ _
      · exact List.mem_cons_of_mem _ (List.mem_cons_self _ _)
    · exact List.mem_cons_of_mem _ (List.mem_cons_of_mem _ hmem)

theorem le_foldl_max_init (xs : List Int) : ∀ a : Int, a ≤ xs.foldl max a := by
  induction xs with
  | nil => intro a; simp
  | cons y ys ih =>
    intro a
    rw [List.foldl_cons]
    exact le_trans (le_max_left a y) (ih (max a y))

theorem le_foldl_max_mem (xs : List Int) : ∀ a x : Int, x ∈ xs → x ≤ xs.foldl max a := by
  induction xs with
  | nil => intro a x hx; simp at hx
  | cons y ys ih =>
    intro a x hx
    rw [List.foldl_cons]
    rcases List.mem_cons.mp hx with rfl | hx2
    · exact le_trans (le_max_right a x) (le_foldl_max_init ys (max a x))
    · exact ih (max a y) x hx2

theorem listMin_mem (l : List Int) (h : l ≠ []) : listMin l ∈ l := by
  cases l with
  | nil => exact absurd rfl h
  | cons a xs => exact foldl_min_mem xs a

theorem listMin_le (l : List Int) (x : Int) (hx : x ∈ l) : listMin l ≤ x := by
  cases l with
  | nil => simp at hx
  | cons a xs =>
    rcases List.mem_cons.mp hx with rfl | hx2
    · exact foldl_min_le_init xs x
    · exact foldl_min_le_mem xs a x hx2

theorem listMax_mem (l : List Int) (h : l ≠ []) : listMax l ∈ l := by
  cases l with
  | nil => exact absurd rfl h
  | cons a xs => exact foldl_max_mem xs a

theorem le_listMax (l : List Int) (x : Int) (hx : x ∈ l) : x ≤ listMax l := by
  cases l with
  | nil => simp at hx
  | cons a xs =>
    rcases List.mem_cons.mp hx with rfl | hx2
    · exact le_foldl_max_init xs x
    · exact le_foldl_max_mem xs a x hx2

theorem getLastD_mem (l : List Int) (h : l ≠ []) : ∀ d : Int, l.getLastD d ∈ l := by
  induction l with
  | nil => exact absurd rfl h
  | cons a rest ih =>
    intro d
    rw [List.getLastD_cons]
    cases rest with
    | nil => simp [List.getLastD]
    | cons b r2 => exact List.mem_cons_of_mem _ (ih (by simp) a)

theorem pairwise_le_getLastD (s : List Int)
    (hs : s.Pairwise (fun a b : Int => a ≤ b)) :
    ∀ (d x : Int), x ∈ s → x ≤ s.getLastD d := by
  induction s with
  | nil => intro d x hx; simp at hx
  | cons a rest ih =>
    intro d x hx
    rw [List.pairwise_cons] at hs
    rw [List.getLastD_cons]
    rcases List.mem_cons.mp hx with rfl | hx2
    · cases rest with
      | nil => simp [List.getLastD]
      | cons b r2 => exact hs.1 _ (getLastD_mem (b :: r2) (by simp) x)
    · exact ih hs.2 a x hx2

theorem pySortAsc_length (l : List Int) : (pySortAsc l).length = l.length :=
  (List.perm_insertionSort _ l).length_eq

theorem pySortAsc_getLastD_eq_listMax (l : List Int) (h : l ≠ []) :
    (pySortAsc l).getLastD 0 = listMax l := by
  have hperm : (pySortAsc l).Perm l := List.perm_insertionSort _ l
  have hsort : (pySortAsc l).Pairwise (fun a b : Int => a ≤ b) :=
    List.sorted_insertionSort (r := fun a b : Int => a ≤ b) l
  have hsne : pySortAsc l ≠ [] := by
    intro hc
    rw [hc] at hperm
    exact h hperm.nil_eq.symm
  have hmem : (pySortAsc l).getLastD 0 ∈ l :=
    hperm.mem_iff.mp (getLastD_mem _ hsne 0)
  have hub : ∀ x ∈ l, x ≤ (pySortAsc l).getLastD 0 := fun x hx =>
    pairwise_le_getLastD _ hsort 0 x (hperm.mem_iff.mpr hx)
  have h1 : (pySortAsc l).getLastD 0 ≤ listMax l := le_listMax l _ hmem
  have h2 : listMax l ≤ (pySortAsc l).getLastD 0 := hub _ (listMax_mem l h)
  omega

theorem pySortAsc_getD_one (l : List Int) (h : 1 < l.length) :
    (pySortAsc l).getD 1 0 = secondSmallest l := by
  have hlne : l ≠ [] := by
    intro hc
    rw [hc] at h
    simp at h
  have hperm : (pySortAsc l).Perm l := List.perm_insertionSort _ l
  have hsort : (pySortAsc l).Pairwise (fun a b : Int => a ≤ b) :=
    List.sorted_insertionSort (r := fun a b : Int => a ≤ b) l
  have hlen : (pySortAsc l).length = l.length := hperm.length_eq
  rcases hs : pySortAsc l with _ | ⟨a, s2⟩
  · rw [hs] at hlen
    rw [← hlen] at h
    simp at h
  rcases hs2 : s2 with _ | ⟨b, rest⟩
  · rw [hs, hs2] at hlen
    rw [← hlen] at h
    simp at h
  subst hs2
  rw [hs] at hperm hsort
  rw [List.pairwise_cons] at hsort
  have hamem : a ∈ l := hperm.mem_iff.mp (List.mem_cons_self _ _)
  have hale : ∀ x ∈ l, a ≤ x := by
    intro x hx
    rcases List.mem_cons.mp (hperm.mem_iff.mpr hx) with rfl | hx2
    · exact le_refl x
    · exact hsort.1 x hx2
  have hmin : listMin l = a :=
    le_antisymm (listMin_le l a hamem) (hale _ (listMin_mem l hlne))
  have hper2 : (l.erase a).Perm (b :: rest) := by
    have herase := (hperm.symm).erase a
    rw [List.erase_cons_head] at herase
    exact herase
  have hne2 : l.erase a ≠ [] := by
    intro hc
    rw [hc] at hper2
    exact absurd hper2.nil_eq (by simp)
  rw [List.pairwise_cons] at hsort
  have hbmem : b ∈ l.erase a := hper2.mem_iff.mpr (List.mem_cons_self _ _)
  have hble : ∀ x ∈ l.erase a, b ≤ x := by
    intro x hx
    rcases List.mem_cons.mp (hper2.mem_iff.mp hx) with rfl | hx2
    · exact le_refl x
    · exact hsort.2.1 x hx2
  have hmin2 : listMin (l.erase a) = b :=
    le_antisymm (listMin_le _ b hbmem) (hble _ (listMin_mem _ hne2))
  rw [secondSmallest, hmin, hmin2]
  rfl

/-- C9: the parameter summariser emits exactly one row per transcript whose
chromosome name has at most 5 characters and none for any other; in a row,
ATG and Stop come from the model when the model's start-codon position is
positive and are the sentinel -1 otherwise, the first splice site is the
second-smallest transcript-local exon start and the last splice site the
largest when the transcript has more than one exon (both -1 otherwise), and
Length is the model's derived transcript length. -/
theorem C9_parameter_summarizer (txs : List Transcript) :
    get_parameters txs = (txs.filter (fun t => t.chrom.length ≤ 5)).map rowOf ∧
    (∀ (t : Transcript) (cv sv : Int), t.ctis = some cv → t.stopPos = some sv →
      (rowOf t).txId = t.id ∧ (rowOf t).uid = t.uid ∧
      (rowOf t).txLength = t.pyLen ∧
      (0 < cv → (rowOf t).atg = cv ∧ (rowOf t).stopCodon = sv) ∧
      (¬ 0 < cv → (rowOf t).atg = -1 ∧ (rowOf t).stopCodon = -1) ∧
      (1 < t.transStarts.length →
        (rowOf t).firstSpliceSite = secondSmallest t.transStarts ∧
        (rowOf t).lastSpliceSite = listMax t.transStarts) ∧
      (¬ 1 < t.transStarts.length →
        (rowOf t).firstSpliceSite = -1 ∧ (rowOf t).lastSpliceSite = -1)) := by
  constructor
  · induction txs with
    | nil => rfl
    | cons t ts ih =>
      rw [get_parameters, List.filter_cons]
      by_cases hc : t.chrom.length ≤ 5
      · rw [if_pos hc]
        simp only [hc, decide_True, if_pos, List.map_cons]
        rw [ih]
      · rw [if_neg hc]
        simp only [hc, decide_False, if_neg]
        exact ih
  · intro t cv sv hctis hstop
    have hcv : t.ctis.getD 0 = cv := by rw [hctis]; rfl
    have hsv : t.stopPos.getD 0 = sv := by rw [hstop]; rfl
    have hlen : (pySortAsc t.transStarts).length = t.transStarts.length :=
      pySortAsc_length _
    by_cases hsp : 1 < t.transStarts.length <;> by_cases hcvpos : 0 < cv
    · have hne : t.transStarts ≠ [] := by
        intro hc2
        rw [hc2] at hsp
        simp at hsp
      have e1 := pySortAsc_getD_one t.transStarts hsp
      have e2 := pySortAsc_getLastD_eq_listMax t.transStarts hne
      simp [hlen, hsp] at e1 e2
      refine ⟨?_, ?_, ?_, ?_, ?_, ?_, ?_⟩ <;>
        simp [rowOf, hcv, hsv, hlen, hsp, hcvpos, e1, e2]
    · have hne : t.transStarts ≠ [] := by
        intro hc2
        rw [hc2] at hsp
        simp at hsp
      have e1 := pySortAsc_getD_one t.transStarts hsp
      have e2 := pySortAsc_getLastD_eq_listMax t.transStarts hne
      simp [hlen, hsp] at e1 e2
      refine ⟨?_, ?_, ?_, ?_, ?_, ?_, ?_⟩ <;>
        simp [rowOf, hcv, hsv, hlen, hsp, hcvpos, e1, e2]
    · refine ⟨?_, ?_, ?_, ?_, ?_, ?_, ?_⟩ <;>
        simp [rowOf, hcv, hsv, hlen, hsp, hcvpos]
    · refine ⟨?_, ?_, ?_, ?_, ?_, ?_, ?_⟩ <;>
        simp [rowOf, hcv, hsv, hlen, hsp, hcvpos]

/-- Closed instance of C9 at the plus-strand example transcript (coding and
spliced): ATG 20, Stop 60, splice sites from the sorted local starts, length
from the model. -/
theorem C9_parameter_summarizer_witness :
    (rowOf wtPlus).atg = 20 ∧ (rowOf wtPlus).stopCodon = 60 ∧
    (rowOf wtPlus).firstSpliceSite = secondSmallest wtPlus.transStarts ∧
    (rowOf wtPlus).lastSpliceSite = listMax wtPlus.transStarts ∧
    (rowOf wtPlus).txLength = wtPlus.pyLen ∧
    get_parameters [wtPlus] =
      ([wtPlus].filter (fun t => t.chrom.length ≤ 5)).map rowOf := by
  have h := C9_parameter_summarizer [wtPlus]
  have h2 := h.2 wtPlus 20 60 (by decide) (by decide)
  exact ⟨(h2.2.2.2.1 (by decide)).1, (h2.2.2.2.1 (by decide)).2,
    (h2.2.2.2.2.2.1 (by decide)).1, (h2.2.2.2.2.2.1 (by decide)).2,
    h2.2.2.1, h.1⟩
